import Mathlib

/-!
Verification development for the handlebars-editor core
(src/core/tokenizer.ts and src/core/parser.ts).

Strings are modelled as `List Char`; absolute offsets as `Nat`.
The external Handlebars scanner (a third-party collaborator, described in
spec section 4.1 Stage 1 and section 6) is modelled from the spec; every
other definition is a direct translation of the TypeScript source.

Note on names: the TypeScript field `end` is a Lean keyword and is rendered
`endPos`; the source's partial-expression terminals OPEN_PARTIAL and
OPEN_PARTIAL_BLOCK are rendered OPEN_PART and OPEN_PART_BLOCK; the source's
`contextPrefix` is rendered `contextPre`; the `variables` identifier of
parser.ts is a reserved token in Lean 4 and is rendered `vars`.
-/

set_option maxRecDepth 10000

namespace HbEditor

/-- Terminal names reported by the scanner (tokenizer.ts / parser.ts use the
scanner's `terminals_` table; this is the closed set of names they consult). -/
inductive Terminal where
  | CONTENT | COMMENT
  | OPEN | CLOSE | OPEN_UNESCAPED | CLOSE_UNESCAPED
  | OPEN_RAW_BLOCK | CLOSE_RAW_BLOCK | END_RAW_BLOCK
  | OPEN_BLOCK | OPEN_INVERSE | OPEN_INVERSE_CHAIN | OPEN_ENDBLOCK
  | OPEN_PART | OPEN_PART_BLOCK
  | OPEN_SEXPR | CLOSE_SEXPR
  | OPEN_BLOCK_PARAMS | CLOSE_BLOCK_PARAMS
  | INVERSE | ID | STRING | NUMBER | BOOLEAN | UNDEFINED | NULL
  | DATA | SEP | EQUALS | UNKNOWN
  deriving DecidableEq, Repr

/-- Semantic highlight categories (../types TokenType). The source's
`variable-path`, `block-keyword`, etc. are camel-cased. -/
inductive TokenType where
  | text | variable | variablePath | blockKeyword | blockParam
  | helper | helperArg | hashKey | hashValue | literal
  | dataVar | subexprParen | comment | raw | brace
  deriving DecidableEq, Repr

/-- RawToken of tokenizer.ts (also used for NormalizedToken, which has the
same shape): terminal name, literal text, absolute start/end offsets. -/
structure RawToken where
  type : Terminal
  text : List Char
  start : Nat
  endPos : Nat
  deriving DecidableEq, Repr

-- ============================================================================
-- Spec-modelled external scanner
-- ============================================================================

/-- Identifier characters for the modelled scanner: everything except
whitespace, template punctuation and delimiters. -/
def isIdChar (c : Char) : Bool :=
  !([' ', '\t', '\n', '\r', '.', '=', '@', '(', ')', '{', '}',
     '"', '|', '!', '#', '/', '>', '^', '&', ','].contains c)

/-- Longest run of raw text before the next expression-opening delimiter. -/
def contentRun : List Char → List Char
  | [] => []
  | '{' :: '{' :: _ => []
  | c :: rest => c :: contentRun rest

/-- Characters of a comment body up to and including the closing braces. -/
def commentRun : List Char → List Char
  | [] => []
  | '}' :: '}' :: _ => ['}', '}']
  | c :: rest => c :: commentRun rest

/-- Modelled from the spec: one step of the external Handlebars scanner
(spec section 4.1 Stage 1: delimiters, path separators, hash-equals, data
sigil, subexpression parens, identifiers, raw text runs, comments).
`none` models the scanner throwing on input the model does not cover
(both callers catch the throw). `some (ts, n, mode)` emits tokens `ts`,
consumes `n` characters and continues in mustache mode iff `mode`. -/
def lexStep (mode : Bool) (pos : Nat) (cs : List Char) : Option (List RawToken × Nat × Bool) :=
  match mode, cs with
  | _, [] => none
  | false, '{' :: '{' :: rest2 =>
    match rest2 with
    | '{' :: _ => some ([⟨.OPEN_UNESCAPED, ['{', '{', '{'], pos, pos + 3⟩], 3, true)
    | '#' :: _ => some ([⟨.OPEN_BLOCK, ['{', '{', '#'], pos, pos + 3⟩], 3, true)
    | '/' :: _ => some ([⟨.OPEN_ENDBLOCK, ['{', '{', '/'], pos, pos + 3⟩], 3, true)
    | '^' :: _ => some ([⟨.OPEN_INVERSE, ['{', '{', '^'], pos, pos + 3⟩], 3, true)
    | '>' :: _ => some ([⟨.OPEN_PART, ['{', '{', '>'], pos, pos + 3⟩], 3, true)
    | '!' :: rest3 =>
      let body := commentRun rest3
      some ([⟨.COMMENT, '{' :: '{' :: '!' :: body, pos, pos + 3 + body.length⟩],
            3 + body.length, false)
    | _ => some ([⟨.OPEN, ['{', '{'], pos, pos + 2⟩], 2, true)
  | false, cs =>
    let run := contentRun cs
    some ([⟨.CONTENT, run, pos, pos + run.length⟩], run.length, false)
  | true, c :: rest =>
    if c = ' ' ∨ c = '\t' ∨ c = '\n' ∨ c = '\r' then some ([], 1, true)
    else match c, rest with
    | '}', '}' :: '}' :: _ => some ([⟨.CLOSE_UNESCAPED, ['}', '}', '}'], pos, pos + 3⟩], 3, false)
    | '}', '}' :: _ => some ([⟨.CLOSE, ['}', '}'], pos, pos + 2⟩], 2, false)
    | '.', _ => some ([⟨.SEP, ['.'], pos, pos + 1⟩], 1, true)
    | '=', _ => some ([⟨.EQUALS, ['='], pos, pos + 1⟩], 1, true)
    | '@', _ => some ([⟨.DATA, ['@'], pos, pos + 1⟩], 1, true)
    | '(', _ => some ([⟨.OPEN_SEXPR, ['('], pos, pos + 1⟩], 1, true)
    | ')', _ => some ([⟨.CLOSE_SEXPR, [')'], pos, pos + 1⟩], 1, true)
    | c, _ =>
      if isIdChar c then
        let run := (c :: rest).takeWhile isIdChar
        some ([⟨.ID, run, pos, pos + run.length⟩], run.length, true)
      else none

/-- Modelled from the spec: the scanner driven to completion, fuel-bounded
so that it is structurally recursive (each step consumes at least one
character, so `length + 1` fuel is always enough). -/
def hbLexGo : Nat → Bool → Nat → List Char → List RawToken
  | 0, _, _, _ => []
  | _ + 1, _, _, [] => []
  | fuel + 1, mode, pos, c :: cs =>
    match lexStep mode pos (c :: cs) with
    | none => []
    | some (ts, n, mode') => ts ++ hbLexGo fuel mode' (pos + n) ((c :: cs).drop n)

/-- Modelled from the spec: full scan of an input string. -/
def hbLex (content : List Char) : List RawToken :=
  hbLexGo (content.length + 1) false 0 content

-- ============================================================================
-- tokenizer.ts Stage 1: lexerTokenize (error recovery by truncation)
-- ============================================================================

/-- Outcome of driving the external scanner over one input: the tokens it
produced before finishing or throwing, and the position recorded when it
threw (`none` when it reached end of input normally). -/
structure RawScan where
  toks : List RawToken
  errorAt : Option Nat
  deriving DecidableEq, Repr

/-- lexerTokenize (tokenizer.ts): the catch block swallows the scanner
error and keeps the tokens collected so far. -/
def lexerTokenize (sr : RawScan) : List RawToken :=
  sr.toks

-- ============================================================================
-- tokenizer.ts Stage 2: normalizeTokens
-- ============================================================================

/-- normalizeTokens: a lone '.' or '=' mis-lexed as ID is retyped. -/
def normalizeTokens (tokens : List RawToken) : List RawToken :=
  tokens.map fun token =>
    if token.type = .ID ∧ token.text = ['.'] then { token with type := Terminal.SEP }
    else if token.type = .ID ∧ token.text = ['='] then { token with type := Terminal.EQUALS }
    else token

-- ============================================================================
-- tokenizer.ts Stage 3: annotateContext
-- ============================================================================

/-- Expression kinds tracked by the annotator ('partial' is rendered `part`). -/
inductive ExprKind where
  | mustache | blockOpen | blockClose | part
  deriving DecidableEq, Repr

structure ExpressionContext where
  type : Option ExprKind
  isInBlockParams : Bool
  pathRootAfterHelper : Bool
  deriving DecidableEq, Repr

structure AnnotatedToken where
  type : Terminal
  text : List Char
  start : Nat
  endPos : Nat
  context : ExpressionContext
  deriving DecidableEq, Repr

def isBlockOpener (t : Terminal) : Bool :=
  t = .OPEN_BLOCK ∨ t = .OPEN_INVERSE ∨ t = .OPEN_INVERSE_CHAIN ∨ t = .OPEN_ENDBLOCK

def isMustacheOpener (t : Terminal) : Bool :=
  t = .OPEN ∨ t = .OPEN_UNESCAPED

def isPartOpener (t : Terminal) : Bool :=
  t = .OPEN_PART ∨ t = .OPEN_PART_BLOCK

def isExpressionOpener (t : Terminal) : Bool :=
  isBlockOpener t ∨ isMustacheOpener t ∨ isPartOpener t

def isExpressionCloser (t : Terminal) : Bool :=
  t = .CLOSE ∨ t = .CLOSE_UNESCAPED ∨ t = .CLOSE_RAW_BLOCK ∨ t = .END_RAW_BLOCK

def isArgumentType (t : Terminal) : Bool :=
  t = .ID ∨ t = .STRING ∨ t = .NUMBER ∨ t = .BOOLEAN ∨ t = .DATA ∨
  t = .OPEN_SEXPR ∨ t = .UNDEFINED ∨ t = .NULL

/-- Forward-pass state of annotateContext. -/
structure AnnState where
  expressionType : Option ExprKind
  isInBlockParams : Bool
  helperSeen : Bool
  pathDepth : Nat
  deriving DecidableEq, Repr

/-- The look-back loop of annotateContext: scanning the already-annotated
tokens from the right, the flag of the nearest ID that starts a path
(its predecessor is neither SEP nor DATA); the scan is realized
left-to-right, keeping the flag of the last qualifying ID seen. -/
def lookbackFlag : Option Terminal → Bool → List AnnotatedToken → Bool
  | _, acc, [] => acc
  | prevType, acc, t :: rest =>
    let acc' :=
      if t.type = .ID ∧ prevType ≠ some .SEP ∧ prevType ≠ some .DATA then
        t.context.pathRootAfterHelper
      else acc
    lookbackFlag (some t.type) acc' rest

/-- The expression kind assigned at an expression-opening terminal. -/
def openKind (t : Terminal) : Option ExprKind :=
  if isBlockOpener t then
    some (if t = .OPEN_ENDBLOCK then .blockClose else .blockOpen)
  else if isPartOpener t then some .part
  else if isMustacheOpener t then some .mustache
  else none

def annotateGo : AnnState → Option RawToken → List AnnotatedToken → List RawToken → List AnnotatedToken
  | _, _, done, [] => done
  | st, prev, done, token :: rest =>
    let prevType : Option Terminal := prev.map (·.type)
    let (expressionType, helperSeen0, pathDepth0) :=
      if isExpressionOpener token.type then (openKind token.type, false, 0)
      else if isExpressionCloser token.type then (none, false, 0)
      else (st.expressionType, st.helperSeen, st.pathDepth)
    let isInBlockParams :=
      if token.type = .OPEN_BLOCK_PARAMS then true
      else if token.type = .CLOSE_BLOCK_PARAMS then false
      else st.isInBlockParams
    let pathDepth :=
      if token.type = .SEP then pathDepth0 + 1
      else if token.type = .ID ∧ prevType ≠ some .SEP ∧ prevType ≠ some .DATA then 0
      else pathDepth0
    let pathRootAfterHelper :=
      if token.type = .ID then
        if pathDepth = 0 then helperSeen0
        else lookbackFlag none false done
      else false
    let ann : AnnotatedToken :=
      ⟨token.type, token.text, token.start, token.endPos,
       ⟨expressionType, isInBlockParams, pathRootAfterHelper⟩⟩
    let helperSeen :=
      if token.type = .ID ∧ pathDepth = 0 ∧ isInBlockParams = false ∧
         prevType ≠ some .EQUALS ∧ prevType ≠ some .DATA then true
      else helperSeen0
    annotateGo ⟨expressionType, isInBlockParams, helperSeen, pathDepth⟩
      (some token) (done ++ [ann]) rest

def annotateContext (tokens : List RawToken) : List AnnotatedToken :=
  annotateGo ⟨none, false, false, 0⟩ none [] tokens

-- ============================================================================
-- tokenizer.ts Stage 4: classify
-- ============================================================================

/-- TOKEN_MAP: static terminal-to-category lookup, defaulting to text. -/
def tokenMap : Terminal → TokenType
  | .CONTENT => .text
  | .COMMENT => .comment
  | .OPEN => .brace
  | .CLOSE => .brace
  | .OPEN_UNESCAPED => .brace
  | .CLOSE_UNESCAPED => .brace
  | .OPEN_RAW_BLOCK => .brace
  | .CLOSE_RAW_BLOCK => .brace
  | .END_RAW_BLOCK => .brace
  | .OPEN_BLOCK => .brace
  | .OPEN_INVERSE => .brace
  | .OPEN_INVERSE_CHAIN => .brace
  | .OPEN_ENDBLOCK => .brace
  | .OPEN_PART => .brace
  | .OPEN_PART_BLOCK => .brace
  | .OPEN_SEXPR => .subexprParen
  | .CLOSE_SEXPR => .subexprParen
  | .OPEN_BLOCK_PARAMS => .blockKeyword
  | .CLOSE_BLOCK_PARAMS => .blockKeyword
  | .INVERSE => .blockKeyword
  | .ID => .variable
  | .STRING => .literal
  | .NUMBER => .literal
  | .BOOLEAN => .literal
  | .UNDEFINED => .literal
  | .NULL => .literal
  | .DATA => .dataVar
  | .SEP => .brace
  | .EQUALS => .brace
  | .UNKNOWN => .text

def optType (t : Option AnnotatedToken) : Option Terminal :=
  t.map (·.type)

/-- classifyByExpressionContext (tokenizer.ts). -/
def classifyByExpressionContext
    (token : AnnotatedToken) (prev next : Option AnnotatedToken) : TokenType :=
  if token.context.type = some .blockOpen ∨ token.context.type = some .blockClose then
    if (prev.map (fun p => isBlockOpener p.type)).getD false then .blockKeyword
    else .helperArg
  else if token.context.type = some .part then
    if (prev.map (fun p => isPartOpener p.type)).getD false then .helper
    else .helperArg
  else if optType prev = some .OPEN_SEXPR then .helper
  else if token.context.type = some .mustache then
    if (prev.map (fun p => isMustacheOpener p.type)).getD false then
      if optType next = some .SEP then .variable
      else if (next.map (fun n => isArgumentType n.type)).getD false then .helper
      else .variable
    else .helperArg
  else .variable

/-- classifyIdToken (tokenizer.ts): precedence rules for ID terminals. -/
def classifyIdToken
    (token : AnnotatedToken) (prev next : Option AnnotatedToken) : TokenType :=
  if token.text = ['t', 'h', 'i', 's'] then .dataVar
  else if token.context.isInBlockParams then .blockParam
  else if optType next = some .EQUALS then .hashKey
  else if optType prev = some .EQUALS then .hashValue
  else if optType prev = some .DATA then .dataVar
  else if optType prev = some .SEP then
    if token.context.pathRootAfterHelper then .helperArg else .variablePath
  else classifyByExpressionContext token prev next

structure Classified where
  token : AnnotatedToken
  highlightType : TokenType
  deriving DecidableEq, Repr

def classifyGo : Option AnnotatedToken → List AnnotatedToken → List Classified
  | _, [] => []
  | prev, t :: rest =>
    let ht := if t.type = .ID then classifyIdToken t prev rest.head? else tokenMap t.type
    ⟨t, ht⟩ :: classifyGo (some t) rest

def classifyTokens (tokens : List AnnotatedToken) : List Classified :=
  classifyGo none tokens

-- ============================================================================
-- tokenizer.ts Stage 5: buildOutput
-- ============================================================================

/-- HighlightToken: public tokenizer output. -/
structure HighlightToken where
  type : TokenType
  value : List Char
  start : Nat
  endPos : Nat
  deriving DecidableEq, Repr

/-- content.slice(a, b) on the List Char model. -/
def slice (l : List Char) (a b : Nat) : List Char :=
  (l.drop a).take (b - a)

/-- The gap filler of buildOutput: a synthetic text token when the next
token starts beyond the cursor. -/
def gapFill (content : List Char) (pos start : Nat) : List HighlightToken :=
  if start > pos then [⟨.text, slice content pos start, pos, start⟩] else []

/-- buildOutput (tokenizer.ts Stage 5): gap filling and DATA merging,
written as structural recursion over the classified tokens with the
output cursor `pos` carried explicitly. -/
def buildGo (content : List Char) : Nat → List Classified → List HighlightToken
  | pos, [] =>
    if pos < content.length then
      [⟨.text, slice content pos content.length, pos, content.length⟩]
    else []
  | pos, [c] =>
    gapFill content pos c.token.start ++
      ⟨c.highlightType, slice content c.token.start c.token.endPos,
       c.token.start, c.token.endPos⟩ :: buildGo content c.token.endPos []
  | pos, c :: c2 :: rest =>
    if c.token.type = .DATA ∧ c2.token.type = .ID ∧ c2.token.start = c.token.endPos then
      gapFill content pos c.token.start ++
        ⟨.dataVar, slice content c.token.start c2.token.endPos,
         c.token.start, c2.token.endPos⟩ :: buildGo content c2.token.endPos rest
    else
      gapFill content pos c.token.start ++
        ⟨c.highlightType, slice content c.token.start c.token.endPos,
         c.token.start, c.token.endPos⟩ :: buildGo content c.token.endPos (c2 :: rest)

def buildOutput (content : List Char) (classified : List Classified) : List HighlightToken :=
  buildGo content 0 classified

-- ============================================================================
-- tokenizer.ts main pipeline
-- ============================================================================

/-- Stages 2-5 of tokenize, applied to a given raw token list (the Stage 1
scanner output), including the final zero-length filter. -/
def tokenizeFrom (content : List Char) (rawTokens : List RawToken) : List HighlightToken :=
  if content.isEmpty then []
  else
    (buildOutput content
      (classifyTokens (annotateContext (normalizeTokens rawTokens)))).filter
      (fun t => !t.value.isEmpty)

/-- tokenize over an explicit Stage 1 scan outcome: the caught scanner
failure (if any) leaves only the already-produced tokens. -/
def tokenizeScan (content : List Char) (sr : RawScan) : List HighlightToken :=
  tokenizeFrom content (lexerTokenize sr)

/-- tokenize (tokenizer.ts) with the spec-modelled scanner. -/
def tokenize (content : List Char) : List HighlightToken :=
  tokenizeScan content ⟨hbLex content, none⟩

-- ============================================================================
-- parser.ts: types and constants
-- ============================================================================

/-- ExpressionToken (parser.ts): terminal name plus literal text. -/
structure ExpressionToken where
  name : Terminal
  text : List Char
  deriving DecidableEq, Repr

/-- Expression kinds of parser.ts ('partial' is rendered `part`). -/
inductive ExprType where
  | mustache | block | endblock | part
  deriving DecidableEq, Repr

structure Expression where
  type : ExprType
  tokens : List ExpressionToken
  helperName : Option (List Char)
  deriving DecidableEq, Repr

structure BlockFrame where
  helper : List Char
  context : List Char
  deriving DecidableEq, Repr

/-- Derived context info: the dotted scope `pre`fix (source: `prefix`) and
the outermost `root` context name. -/
structure CtxInfo where
  root : List Char
  pre : List Char
  deriving DecidableEq, Repr

/-- ExtractionContext (parser.ts); `contextPre` renders `contextPrefix`. -/
structure ExtractionContext where
  blockStack : List BlockFrame
  contextPre : Option (List Char)
  rootContext : Option (List Char)
  deriving DecidableEq, Repr

inductive VarType where
  | simple | nested | block
  deriving DecidableEq, Repr

structure ExtractedVariable where
  name : List Char
  path : List Char
  type : VarType
  blockType : Option (List Char)
  context : Option (List Char)
  deriving DecidableEq, Repr

/-- BLOCK_HELPER_NAMES plus lookup/log/this/else: BUILT_IN_HELPERS. -/
def builtinMember (name : List Char) : Bool :=
  [("if").toList, ("unless").toList, ("each").toList, ("with").toList,
   ("lookup").toList, ("log").toList, ("this").toList, ("else").toList].contains name

/-- isBuiltIn (parser.ts): set membership or a data-sigil-prefixed name. -/
def isBuiltIn (name : List Char) : Bool :=
  builtinMember name ∨ name.head? = some '@'

/-- CONTEXT_HELPERS. -/
def contextHelper (name : List Char) : Bool :=
  name = ("each").toList ∨ name = ("with").toList

/-- ARGUMENT_TOKENS of parser.ts (note: no UNDEFINED/NULL here). -/
def isArgumentToken (token : ExpressionToken) : Bool :=
  token.name = .ID ∨ token.name = .STRING ∨ token.name = .NUMBER ∨
  token.name = .BOOLEAN ∨ token.name = .DATA ∨ token.name = .OPEN_SEXPR

-- ============================================================================
-- parser.ts: pure utilities
-- ============================================================================

/-- collectPath (parser.ts), on the suffix of the token list starting at
the collection index, with the `expectingId` flag carried explicitly
(initially true). -/
def collectPath : List ExpressionToken → Bool → List (List Char)
  | [], _ => []
  | tok :: rest, expectingId =>
    if tok.name = .EQUALS then []
    else if tok.name = .ID then
      if expectingId = false then []
      else if (rest.head?.map (·.name)) = some .EQUALS then []
      else tok.text :: collectPath rest false
    else if tok.name = .SEP then collectPath rest true
    else []

/-- path.join on the List Char model. -/
def joinDots : List (List Char) → List Char
  | [] => []
  | [p] => p
  | p :: rest => p ++ '.' :: joinDots rest

/-- createVariable (parser.ts). -/
def createVariable (name path : List Char) (blockType context : Option (List Char)) :
    ExtractedVariable :=
  { name := name
    path := path
    type :=
      if blockType.isSome then .block
      else if path.contains '.' ∨ context.isSome then .nested
      else .simple
    blockType := blockType
    context := context }

/-- computeContextPath (parser.ts): fold the live block stack into the
dotted scope parts and the outermost root context name. -/
def computeContextPath (blockStack : List BlockFrame) : Option CtxInfo :=
  let step := fun (acc : List (List Char) × Option (List Char)) (block : BlockFrame) =>
    if contextHelper block.helper ∧ block.context ≠ [] then
      (acc.1 ++ [if block.helper = ("each").toList then block.context ++ ['[', ']']
                 else block.context],
       acc.2 <|> some block.context)
    else acc
  let parts := (blockStack.foldl step ([], none)).1
  let rootContext := (blockStack.foldl step ([], none)).2
  match parts, rootContext with
  | [], _ => none
  | _, none => none
  | ps, some r => some ⟨r, joinDots ps ++ ['.']⟩

-- ============================================================================
-- parser.ts: variable recording
-- ============================================================================

/-- Extraction state: the insertion-ordered variables map of parser.ts,
plus a ghost `trace` of every full path passed to addVariable in call
order (instrumentation used only to state the ordering property; the
source's observable state is `vars`). -/
structure VarsState where
  vars : List ExtractedVariable
  trace : List (List Char)
  deriving DecidableEq, Repr

/-- The truthiness test `ctx.contextPrefix && ctx.rootContext` of
addVariable: both present and non-empty. -/
def ctxVariableInfo (ctx : ExtractionContext) : Option CtxInfo :=
  match ctx.contextPre, ctx.rootContext with
  | some p, some r => if p ≠ [] ∧ r ≠ [] then some ⟨r, p⟩ else none
  | _, _ => none

/-- The full path computed by addVariable. -/
def fullPathOf (path : List (List Char)) (ctx : ExtractionContext) : List Char :=
  match ctxVariableInfo ctx with
  | some info => info.pre ++ joinDots path
  | none => joinDots path

/-- addVariable (parser.ts): dedup by full path, first recording wins.
Also appends the full path to the ghost trace. -/
def addVariable (path : List (List Char)) (ctx : ExtractionContext)
    (st : VarsState) (blockType : Option (List Char)) : VarsState :=
  let name := path.headD []
  let fullPath := fullPathOf path ctx
  let context := (ctxVariableInfo ctx).map (·.root)
  let st' : VarsState := { st with trace := st.trace ++ [fullPath] }
  if st.vars.any (fun v => v.path == fullPath) then st'
  else { st' with vars := st.vars ++ [createVariable name fullPath blockType context] }

-- ============================================================================
-- parser.ts: argument extraction
-- ============================================================================

/-- extractArguments (parser.ts), fuel-bounded index loop so that it is
structurally recursive (the index grows by at least one per iteration,
so `tokens.length + 1` fuel is always enough). -/
def extractArgsGo (tokens : List ExpressionToken) (ctx : ExtractionContext) :
    Nat → Nat → VarsState → VarsState
  | 0, _, st => st
  | fuel + 1, i, st =>
    match tokens.get? i with
    | none => st
    | some tok =>
      let prevName : Option Terminal :=
        if i = 0 then none else (tokens.get? (i - 1)).map (·.name)
      let nextName : Option Terminal := (tokens.get? (i + 1)).map (·.name)
      if tok.name = .OPEN_SEXPR ∨ tok.name = .CLOSE_SEXPR then
        extractArgsGo tokens ctx fuel (i + 1) st
      else if tok.name = .DATA then extractArgsGo tokens ctx fuel (i + 1) st
      else if prevName = some .DATA then extractArgsGo tokens ctx fuel (i + 1) st
      else if tok.name = .EQUALS then extractArgsGo tokens ctx fuel (i + 1) st
      else if tok.name = .ID ∧ nextName = some .EQUALS then
        extractArgsGo tokens ctx fuel (i + 1) st
      else if tok.name = .ID ∧ isBuiltIn tok.text = false then
        if prevName = some .OPEN_SEXPR then extractArgsGo tokens ctx fuel (i + 1) st
        else
          let argPath := collectPath (tokens.drop i) true
          if 0 < argPath.length then
            extractArgsGo tokens ctx fuel (i + (argPath.length * 2 - 2) + 1)
              (addVariable argPath ctx st none)
          else extractArgsGo tokens ctx fuel (i + 1) st
      else extractArgsGo tokens ctx fuel (i + 1) st

def extractArguments (tokens : List ExpressionToken) (startIdx : Nat)
    (ctx : ExtractionContext) (st : VarsState) : VarsState :=
  extractArgsGo tokens ctx (tokens.length + 1) startIdx st

-- ============================================================================
-- parser.ts: per-expression extraction
-- ============================================================================

/-- extractFromMustache (parser.ts). -/
def extractFromMustache (expr : Expression) (ctx : ExtractionContext)
    (st : VarsState) : VarsState :=
  let tokens := expr.tokens
  if tokens.length = 0 then st
  else if (tokens.head?.map (·.name)) = some .DATA then st
  else
    let firstName := (tokens.head?.map (·.text)).getD []
    if isBuiltIn firstName then extractArguments tokens 1 ctx st
    else
      let path := collectPath tokens true
      if 0 < path.length then
        let pathTokenCount := path.length * 2 - 1
        let nextTok := tokens.get? pathTokenCount
        let hasArguments := (nextTok.map isArgumentToken).getD false
        if hasArguments then extractArguments tokens pathTokenCount ctx st
        else addVariable path ctx st none
      else st

/-- extractFromBlock (parser.ts): returns the pushed frame and the new
state. -/
def extractFromBlock (expr : Expression) (ctx : ExtractionContext)
    (st : VarsState) : BlockFrame × VarsState :=
  let tokens := expr.tokens
  let firstName := (tokens.head?.map (·.text)).getD []
  if contextHelper firstName then
    if ((tokens.get? 1).map (·.name)) = some .OPEN_SEXPR then
      (⟨firstName, []⟩, extractArguments tokens 1 ctx st)
    else
      let restFromId := (tokens.drop 1).dropWhile (fun t => !(t.name == .ID))
      if restFromId.length = 0 then (⟨firstName, []⟩, st)
      else
        let argPath := collectPath restFromId true
        let st' :=
          if 0 < argPath.length ∧ isBuiltIn (argPath.headD []) = false then
            addVariable argPath ctx st (some firstName)
          else st
        (⟨firstName, argPath.headD []⟩, st')
  else if builtinMember firstName then
    if ((tokens.get? 1).map (·.name)) = some .OPEN_SEXPR then
      (⟨firstName, []⟩, extractArguments tokens 1 ctx st)
    else
      let restFromId := (tokens.drop 1).dropWhile (fun t => !(t.name == .ID))
      if restFromId.length = 0 then (⟨firstName, []⟩, st)
      else
        let argPath := collectPath restFromId true
        let st' :=
          if 0 < argPath.length ∧ isBuiltIn (argPath.headD []) = false then
            addVariable argPath ctx st (some firstName)
          else st
        (⟨firstName, []⟩, st')
  else (⟨firstName, []⟩, st)

/-- The index loop of extractFromPartial that skips the partial's own
name token(s); fuel-bounded. -/
def partNameEndGo (tokens : List ExpressionToken) : Nat → Nat → Nat
  | 0, idx => idx
  | fuel + 1, idx =>
    match tokens.get? idx with
    | none => idx
    | some t =>
      if t.name = .SEP ∨ t.name = .ID then
        if t.name = .ID ∧ ((tokens.get? (idx - 1)).map (·.name)) ≠ some .SEP then idx
        else partNameEndGo tokens fuel (idx + 1)
      else idx

/-- extractFromPartial (parser.ts). -/
def extractFromPart (expr : Expression) (ctx : ExtractionContext)
    (st : VarsState) : VarsState :=
  let tokens := expr.tokens
  let idx := partNameEndGo tokens (tokens.length + 1) 1
  extractArguments tokens idx ctx st

/-- updateBlockStack (parser.ts). -/
def updateBlockStack (stack : List BlockFrame) (expr : Expression) : List BlockFrame :=
  if expr.type = .endblock then
    if 0 < stack.length then stack.dropLast else stack
  else stack

/-- extractVariablesFromExpressions (parser.ts): fold over expressions
with the block stack and the variables map. -/
def extractExprsGo : List Expression → List BlockFrame → VarsState → VarsState
  | [], _, st => st
  | expr :: rest, blockStack, st =>
    let contextInfo := computeContextPath blockStack
    let ctx : ExtractionContext :=
      ⟨blockStack, contextInfo.map (·.pre), contextInfo.map (·.root)⟩
    match expr.type with
    | .mustache => extractExprsGo rest blockStack (extractFromMustache expr ctx st)
    | .block =>
      let result := extractFromBlock expr ctx st
      extractExprsGo rest (blockStack ++ [result.1]) result.2
    | .part => extractExprsGo rest blockStack (extractFromPart expr ctx st)
    | .endblock => extractExprsGo rest (updateBlockStack blockStack expr) st

def extractVariablesFromExpressions (expressions : List Expression) : VarsState :=
  extractExprsGo expressions [] ⟨[], []⟩

-- ============================================================================
-- parser.ts: expression segmentation
-- ============================================================================

/-- Tokens handed to parseSegment by the scanner (name and text only;
parseSegment additionally reads the scanner's last reported column,
modelled by `errorAt` below). -/
structure LexTok where
  name : Terminal
  text : List Char
  deriving DecidableEq, Repr

/-- Outcome of driving the scanner over one suffix for parseSegment: the
tokens it produced, and the last-position value recorded when it threw
(`none` when it reached end of input normally). -/
structure ScanResult where
  toks : List LexTok
  errorAt : Option Nat
  deriving DecidableEq, Repr

/-- State of the token loop in parseSegment. -/
structure SegState where
  inExpression : Bool
  expressionType : Option ExprType
  tokens : List ExpressionToken
  deriving DecidableEq, Repr

/-- The token loop of parseSegment (parser.ts): groups tokens into whole
expressions. Raw-block delimiters are skipped; note the source leaves
`expressionType` set after a CLOSE. -/
def segLoop : List LexTok → SegState → List Expression → List Expression
  | [], _, acc => acc
  | tk :: rest, st, acc =>
    if tk.name = .OPEN_RAW_BLOCK ∨ tk.name = .CLOSE_RAW_BLOCK ∨ tk.name = .END_RAW_BLOCK then
      segLoop rest st acc
    else if tk.name = .OPEN ∨ tk.name = .OPEN_UNESCAPED then
      segLoop rest ⟨true, some .mustache, []⟩ acc
    else if tk.name = .OPEN_PART ∨ tk.name = .OPEN_PART_BLOCK then
      segLoop rest ⟨true, some .part, []⟩ acc
    else if tk.name = .OPEN_BLOCK ∨ tk.name = .OPEN_INVERSE ∨ tk.name = .OPEN_INVERSE_CHAIN then
      segLoop rest ⟨true, some .block, []⟩ acc
    else if tk.name = .OPEN_ENDBLOCK then
      segLoop rest ⟨true, some .endblock, []⟩ acc
    else if tk.name = .CLOSE ∨ tk.name = .CLOSE_UNESCAPED then
      match st.expressionType with
      | some ty =>
        segLoop rest ⟨false, some ty, []⟩
          (acc ++ [⟨ty, st.tokens, st.tokens.head?.map (·.text)⟩])
      | none => segLoop rest ⟨false, none, []⟩ acc
    else if st.inExpression then
      segLoop rest { st with tokens := st.tokens ++ [⟨tk.name, tk.text⟩] } acc
    else segLoop rest st acc

structure SegmentResult where
  expressions : List Expression
  consumed : Nat
  deriving DecidableEq, Repr

/-- parseSegment (parser.ts) over an explicit scan outcome: the catch
block keeps the expressions collected so far and reports the last
successfully recorded position as `consumed`. -/
def parseSegment (content : List Char) (sr : ScanResult) : SegmentResult :=
  { expressions := segLoop sr.toks ⟨false, none, []⟩ []
    consumed :=
      match sr.errorAt with
      | none => content.length
      | some e => e }

/-- First index of an expression-opening delimiter (the /\{\{/ search). -/
def findOpen : List Char → Option Nat
  | [] => none
  | '{' :: '{' :: _ => some 0
  | _ :: rest => (findOpen rest).map (· + 1)

/-- parseExpressions (parser.ts): the scanning/recovery loop, over an
abstract scanner `scan`; fuel-bounded (the source loop can only repeat
while input remains, and the concrete scanner always finishes a
suffix, so `length + 1` fuel is always enough). -/
def parseExpressionsGo (scan : List Char → ScanResult) :
    Nat → List Char → List Expression
  | 0, _ => []
  | fuel + 1, remaining =>
    if remaining.length = 0 then []
    else
      let result := parseSegment remaining (scan remaining)
      if result.consumed = remaining.length then result.expressions
      else
        let afterError := remaining.drop result.consumed
        match findOpen afterError with
        | none => result.expressions
        | some nextOpen =>
          result.expressions ++ parseExpressionsGo scan fuel (afterError.drop nextOpen)

/-- Modelled from the spec: the scanner outcome handed to parseSegment by
the spec-modelled scanner (it never throws on the modelled subset). -/
def hbScan (content : List Char) : ScanResult :=
  ⟨(hbLex content).map (fun t => ⟨t.type, t.text⟩), none⟩

/-- parseExpressions with the spec-modelled scanner. -/
def parseExpressions (content : List Char) : List Expression :=
  parseExpressionsGo hbScan (content.length + 1) content

-- ============================================================================
-- parser.ts: public API
-- ============================================================================

/-- JS-Set first-seen deduplication, with the processed elements carried
in `seen`. -/
def firstDedupGo : List (List Char) → List (List Char) → List (List Char)
  | [], _ => []
  | a :: l, seen =>
    if seen.contains a then firstDedupGo l seen
    else a :: firstDedupGo l (a :: seen)

/-- The `[...new Set(list)]` idiom of extract. -/
def firstDedup (l : List (List Char)) : List (List Char) :=
  firstDedupGo l []

/-- The truthiness filter `!v.context` of extract. -/
def ctxFalsy (c : Option (List Char)) : Bool :=
  match c with
  | none => true
  | some s => s.isEmpty

structure ExtractionResult where
  vars : List ExtractedVariable
  rootVariables : List (List Char)
  deriving DecidableEq, Repr

/-- extract (parser.ts) with the spec-modelled scanner. -/
def extract (content : List Char) : ExtractionResult :=
  let expressions := parseExpressions content
  let st := extractVariablesFromExpressions expressions
  { vars := st.vars
    rootVariables :=
      firstDedup ((st.vars.filter (fun v => ctxFalsy v.context)).map (·.name)) }

/-- The ghost recording trace of an extract call (the full paths passed to
addVariable, in call order). -/
def extractTrace (content : List Char) : List (List Char) :=
  (extractVariablesFromExpressions (parseExpressions content)).trace

-- ============================================================================
-- parser.ts: interpolate
-- ============================================================================

/-- interpolate (parser.ts). The external templating engine (spec section
4.3: compile-and-render with per-call helper registration) is abstract;
`engine` receives the options and the data object. With no variables the
content is returned unchanged. -/
def interpolate {Data Opts : Type} (engine : Opts → List Char → Data → List Char)
    (content : List Char) (vars : Option Data) (options : Opts) : List Char :=
  match vars with
  | none => content
  | some v => engine options content v

-- ============================================================================
-- Specification predicates
-- ============================================================================

/-- Concatenation of the value fields of highlight tokens. -/
def joinValues (ts : List HighlightToken) : List Char :=
  (ts.map (·.value)).flatten

/-- The tokens tile `[lo, hi)` exactly: each starts where the previous
ended, none is empty, and the last ends at `hi`. -/
def isPartition : Nat → Nat → List HighlightToken → Bool
  | lo, hi, [] => lo == hi
  | lo, hi, t :: rest =>
    t.start == lo && decide (lo < t.endPos) && isPartition t.endPos hi rest

/-- Scanner-contract well-formedness of a position chain (spec section 3,
RawToken: strictly increasing, non-overlapping, inside the input). -/
def chainOK (len : Nat) : Nat → List (Nat × Nat) → Bool
  | _, [] => true
  | pos, (s, e) :: rest =>
    decide (pos ≤ s) && decide (s ≤ e) && decide (e ≤ len) && chainOK len e rest

def rawPos (ts : List RawToken) : List (Nat × Nat) :=
  ts.map (fun t => (t.start, t.endPos))

def annPos (ts : List AnnotatedToken) : List (Nat × Nat) :=
  ts.map (fun t => (t.start, t.endPos))

def clsPos (ts : List Classified) : List (Nat × Nat) :=
  ts.map (fun c => (c.token.start, c.token.endPos))

/-- Leftmost dot-separated segment of a path string. -/
def leftSeg (p : List Char) : List Char :=
  p.takeWhile (fun c => !(c == '.'))

/-- A string without a path separator. -/
def dotFree (p : List Char) : Bool :=
  !(p.contains '.')

-- ============================================================================
-- Concrete inputs used by scenario claims and witnesses
-- ============================================================================

def inpUserName : List Char := "\x7b\x7buser.name\x7d\x7d".toList

def inpUserOpen : List Char := "\x7b\x7buser.".toList

def inpEachItems : List Char :=
  "\x7b\x7b#each items\x7d\x7d\x7b\x7bname\x7d\x7d\x7b\x7b/each\x7d\x7d".toList

def inpNameTwice : List Char :=
  "\x7b\x7bname\x7d\x7d and \x7b\x7bname\x7d\x7d".toList

/-- Witness state for the dedup lemma: a map already holding path "name". -/
def stWit : VarsState :=
  ⟨[createVariable (("name").toList) (("name").toList) none none], [("name").toList]⟩

/-- Witness context: empty block stack, no scope. -/
def ctxWit : ExtractionContext := ⟨[], none, none⟩

/-- Index of the first occurrence of a string in a list. -/
def firstIdx (a : List Char) : List (List Char) → Nat
  | [] => 0
  | b :: l => if a = b then 0 else firstIdx a l + 1

/-- All ID tokens of an expression-token list carry dot-free text (true of
every scanner output: identifier runs never contain the separator). -/
def IdDotFree (tokens : List ExpressionToken) : Prop :=
  ∀ t ∈ tokens, t.name = .ID → dotFree t.text = true

/-- The C5 shape invariant established by createVariable. -/
def VarShapeInv (v : ExtractedVariable) : Prop :=
  v.type = (if v.blockType.isSome then VarType.block
            else if v.path.contains '.' ∨ v.context.isSome then VarType.nested
            else VarType.simple)

/-- The C4 (amended) naming invariant: a context-free variable is named by
the leftmost segment of its path. -/
def VarNameInv (v : ExtractedVariable) : Prop :=
  v.context = none → v.name = leftSeg v.path

/-- Combined extraction-state invariant: the variables list is the
first-seen deduplication of the recording trace, and each stored variable
satisfies the shape and naming invariants. -/
def StInv (st : VarsState) : Prop :=
  (st.vars.map (·.path) = firstDedup st.trace) ∧
  ∀ v ∈ st.vars, VarShapeInv v ∧ VarNameInv v

/-- Witness scanner for the recovery equation: throws immediately. -/
def witScan : List Char → ScanResult := fun _ => ⟨[], some 0⟩

/-- Witness input for the recovery equation: an opener two characters in. -/
def witRemaining : List Char := "ab\x7b\x7bx".toList

/-- The block-argument variable extracted in the each-items scenario. -/
def vWit : ExtractedVariable :=
  ⟨("items").toList, ("items").toList, .block, some (("each").toList), none⟩

-- ============================================================================
-- Theorems
-- ============================================================================

/-- C3: extract of an each-block over items records exactly one variable
with path items[].name whose context is items, and the root variables of
that call are exactly [items]. -/
theorem claim_C3 :
    (((extract inpEachItems).vars.filter
        (fun v => v.path == ("items[].name").toList)).map (fun v => v.context))
      = [some (("items").toList)] ∧
    (extract inpEachItems).rootVariables = [("items").toList] := by
  decide

/-- C6: later recordings of an already-recorded path are silent no-ops on
the variables list, and extract of a template referencing name twice keeps
a single variable. -/
theorem claim_C6 :
    (∀ (path : List (List Char)) (ctx : ExtractionContext) (st : VarsState)
       (bt : Option (List Char)),
       st.vars.any (fun v => v.path == fullPathOf path ctx) = true →
       (addVariable path ctx st bt).vars = st.vars) ∧
    ((extract inpNameTwice).vars).length = 1 := by
  refine ⟨?_, by decide⟩
  intro path ctx st bt h
  simp [addVariable, h]

/-- Witness for C6: the dedup lemma applied at a concrete duplicate path. -/
theorem claim_C6_witness :
    (stWit.vars.any (fun v => v.path == fullPathOf [("name").toList] ctxWit) = true) ∧
    (addVariable [("name").toList] ctxWit stWit none).vars = stWit.vars :=
  ⟨by decide, claim_C6.1 [("name").toList] ctxWit stWit none (by decide)⟩

/-- C8: tokenize of a two-segment path mustache yields brace, variable,
brace (the separator), variable-path, brace. -/
theorem claim_C8 :
    tokenize inpUserName =
      [⟨.brace, ("\x7b\x7b").toList, 0, 2⟩,
       ⟨.variable, ("user").toList, 2, 6⟩,
       ⟨.brace, (".").toList, 6, 7⟩,
       ⟨.variablePath, ("name").toList, 7, 11⟩,
       ⟨.brace, ("\x7d\x7d").toList, 11, 13⟩] := by
  decide

/-- C9: interpolate with no variables argument returns the content
unchanged, for any engine and options. -/
theorem claim_C9 {Data Opts : Type} (engine : Opts → List Char → Data → List Char)
    (content : List Char) (options : Opts) :
    interpolate engine content none options = content := rfl

/-- C4 counterexample: in the each-block scenario a recorded variable has
name "name" but path "items[].name", whose leftmost dot-separated segment
is "items[]" - the claimed equality fails. -/
theorem claim_C4_cex :
    ((extract inpEachItems).vars.any (fun v => !(v.name == leftSeg v.path))) = true := by
  decide

-- ============================================================================
-- C1: round-trip / coverage of the tokenizer pipeline
-- ============================================================================

theorem slice_append (l : List Char) {a b c : Nat} (h1 : a ≤ b) (h2 : b ≤ c) :
    slice l a b ++ slice l b c = slice l a c := by
  unfold slice
  have hd : l.drop b = (l.drop a).drop (b - a) := by
    rw [List.drop_drop]
    congr 1
    omega
  rw [hd]
  rw [← List.take_add]
  congr 1
  omega

theorem slice_length (l : List Char) {a b : Nat} (h1 : a ≤ b) (h2 : b ≤ l.length) :
    (slice l a b).length = b - a := by
  unfold slice
  rw [List.length_take, List.length_drop]
  omega

theorem slice_self (l : List Char) : slice l 0 l.length = l := by
  unfold slice
  simp

theorem slice_refl (l : List Char) (a : Nat) : slice l a a = [] := by
  unfold slice
  simp

theorem rawPos_normalizeTokens (ts : List RawToken) :
    rawPos (normalizeTokens ts) = rawPos ts := by
  induction ts with
  | nil => rfl
  | cons t ts ih =>
    simp only [normalizeTokens, List.map_cons, rawPos] at *
    refine congrArg₂ List.cons ?_ ih
    split <;> try rfl
    split <;> rfl

theorem annPos_annotateGo (rest : List RawToken) :
    ∀ (st : AnnState) (prev : Option RawToken) (done : List AnnotatedToken),
      annPos (annotateGo st prev done rest) = annPos done ++ rawPos rest := by
  induction rest with
  | nil => intro st prev done; simp [annotateGo, rawPos]
  | cons t rest ih =>
    intro st prev done
    rw [annotateGo, ih]
    simp [annPos, rawPos]

theorem annPos_annotateContext (ts : List RawToken) :
    annPos (annotateContext ts) = rawPos ts := by
  rw [annotateContext, annPos_annotateGo]
  rfl

theorem clsPos_classifyGo (ts : List AnnotatedToken) :
    ∀ (prev : Option AnnotatedToken), clsPos (classifyGo prev ts) = annPos ts := by
  induction ts with
  | nil => intro prev; rfl
  | cons t ts ih =>
    intro prev
    rw [classifyGo]
    simp only [clsPos, annPos, List.map_cons]
    exact congrArg _ (ih (some t))

/-- One emitted span whose value is the matching slice, consumed by the
zero-length filter: either it is dropped (empty span) or it extends the
partition. -/
theorem partition_step (content : List Char) (ht : TokenType) {lo mid : Nat}
    {R : List HighlightToken} (h1 : lo ≤ mid) (h2 : mid ≤ content.length)
    (hrec : isPartition mid content.length (R.filter (fun t => !t.value.isEmpty)) = true ∧
      joinValues (R.filter (fun t => !t.value.isEmpty)) = slice content mid content.length) :
    isPartition lo content.length
      ((HighlightToken.mk ht (slice content lo mid) lo mid :: R).filter
        (fun t => !t.value.isEmpty)) = true ∧
    joinValues ((HighlightToken.mk ht (slice content lo mid) lo mid :: R).filter
        (fun t => !t.value.isEmpty)) = slice content lo content.length := by
  have hlen : (slice content lo mid).length = mid - lo := slice_length content h1 h2
  by_cases he : (slice content lo mid).isEmpty
  · have hml : mid = lo := by
      rw [List.isEmpty_iff, ← List.length_eq_zero] at he
      omega
    subst hml
    simpa [List.filter_cons, he] using hrec
  · have hf : (slice content lo mid).isEmpty = false := by simp_all
    have hlt : lo < mid := by
      rw [List.isEmpty_iff, ← List.length_eq_zero] at he
      omega
    constructor
    · simp only [List.filter_cons, hf, Bool.not_false, if_true, isPartition]
      simp [hlt, hrec.1]
    · simp only [List.filter_cons, hf, Bool.not_false, if_true, joinValues,
        List.map_cons, List.flatten_cons]
      have h2' := hrec.2
      simp only [joinValues] at h2'
      rw [h2']
      exact slice_append content h1 (by omega)

/-- A gap-filling text span followed by an emitted span, as produced by
every branch of buildOutput. -/
theorem partition_glue (content : List Char) {pos s e : Nat} {ht : TokenType}
    {R : List HighlightToken} (h0 : pos ≤ s) (h1 : s ≤ e) (h2 : e ≤ content.length)
    (hrec : isPartition e content.length (R.filter (fun t => !t.value.isEmpty)) = true ∧
      joinValues (R.filter (fun t => !t.value.isEmpty)) = slice content e content.length) :
    isPartition pos content.length
      ((gapFill content pos s ++ HighlightToken.mk ht (slice content s e) s e :: R).filter
        (fun t => !t.value.isEmpty)) = true ∧
    joinValues ((gapFill content pos s ++ HighlightToken.mk ht (slice content s e) s e :: R).filter
        (fun t => !t.value.isEmpty)) = slice content pos content.length := by
  have hstep := partition_step content ht h1 h2 hrec
  by_cases hg : s > pos
  · have : gapFill content pos s = [⟨.text, slice content pos s, pos, s⟩] := by
      simp [gapFill, hg]
    rw [this]
    simpa using partition_step content TokenType.text
      (le_of_lt hg) (le_trans h1 h2) hstep
  · have hps : pos = s := by omega
    have : gapFill content pos s = [] := by
      simp [gapFill, hg]
    rw [this, List.nil_append, hps]
    exact hstep

theorem buildGo_base (content : List Char) {pos : Nat} (hp : pos ≤ content.length) :
    isPartition pos content.length
      ((buildGo content pos []).filter (fun t => !t.value.isEmpty)) = true ∧
    joinValues ((buildGo content pos []).filter (fun t => !t.value.isEmpty)) =
      slice content pos content.length := by
  rw [buildGo]
  by_cases h : pos < content.length
  · simp only [h, if_true]
    have := partition_step content TokenType.text (R := []) (le_of_lt h) (le_refl _)
      (by constructor <;> simp [isPartition, joinValues, slice_refl])
    simpa using this
  · have hpl : pos = content.length := by omega
    simp [h, hpl, isPartition, joinValues, slice_refl]

theorem buildGo_spec (content : List Char) :
    ∀ (n : Nat) (ts : List Classified) (pos : Nat), ts.length ≤ n →
      chainOK content.length pos (clsPos ts) = true → pos ≤ content.length →
      isPartition pos content.length
        ((buildGo content pos ts).filter (fun t => !t.value.isEmpty)) = true ∧
      joinValues ((buildGo content pos ts).filter (fun t => !t.value.isEmpty)) =
        slice content pos content.length := by
  intro n
  induction n with
  | zero =>
    intro ts pos hn hchain hp
    have : ts = [] := List.length_eq_zero.1 (Nat.le_zero.1 hn)
    subst this
    exact buildGo_base content hp
  | succ n ih =>
    intro ts pos hn hchain hp
    match ts with
    | [] => exact buildGo_base content hp
    | [c] =>
      simp only [clsPos, List.map_cons, List.map_nil, chainOK, Bool.and_eq_true,
        decide_eq_true_eq] at hchain
      obtain ⟨⟨⟨hps, hse⟩, hel⟩, -⟩ := hchain
      rw [buildGo]
      exact partition_glue content hps hse hel (buildGo_base content hel)
    | c :: c2 :: rest =>
      simp only [clsPos, List.map_cons, chainOK, Bool.and_eq_true,
        decide_eq_true_eq] at hchain
      obtain ⟨⟨⟨hps, hse⟩, hel⟩, ⟨⟨hes2, hs2e2⟩, he2l⟩, hrest⟩ := hchain
      rw [buildGo]
      by_cases hmerge : c.token.type = .DATA ∧ c2.token.type = .ID ∧
          c2.token.start = c.token.endPos
      · simp only [hmerge, if_true]
        have hn2 : rest.length ≤ n := by
          simp at hn; omega
        have hrec := ih rest c2.token.endPos hn2 hrest he2l
        exact partition_glue content hps (by omega) he2l hrec
      · simp only [hmerge, if_false]
        have hn2 : (c2 :: rest).length ≤ n := by
          simp at hn ⊢; omega
        have hchain2 : chainOK content.length c.token.endPos (clsPos (c2 :: rest)) = true := by
          simp only [clsPos, List.map_cons, chainOK, Bool.and_eq_true, decide_eq_true_eq]
          exact ⟨⟨⟨hes2, hs2e2⟩, he2l⟩, hrest⟩
        have hrec := ih (c2 :: rest) c.token.endPos hn2 hchain2 hel
        exact partition_glue content hps hse hel hrec

/-- C1: for any input and any scanner output satisfying the documented
RawToken contract (spec section 3: ordered, non-overlapping, in-bounds
offsets), the tokenizer pipeline returns a contiguous, gap-free,
zero-length-free partition of [0, length) whose concatenated values
reproduce the input exactly - in particular on malformed or unterminated
input, where the scanner output is merely a truncated token list. -/
theorem claim_C1 (content : List Char) (rawTokens : List RawToken)
    (h : chainOK content.length 0 (rawPos rawTokens) = true) :
    isPartition 0 content.length (tokenizeFrom content rawTokens) = true ∧
    joinValues (tokenizeFrom content rawTokens) = content := by
  unfold tokenizeFrom
  by_cases he : content.isEmpty
  · have : content = [] := List.isEmpty_iff.1 he
    subst this
    simp [he, isPartition, joinValues]
  · simp only [he, if_false]
    have hcls : chainOK content.length 0
        (clsPos (classifyTokens (annotateContext (normalizeTokens rawTokens)))) = true := by
      rw [classifyTokens, clsPos_classifyGo, annPos_annotateContext, rawPos_normalizeTokens]
      exact h
    have := buildGo_spec content
      (classifyTokens (annotateContext (normalizeTokens rawTokens))).length
      (classifyTokens (annotateContext (normalizeTokens rawTokens))) 0
      (le_refl _) hcls (Nat.zero_le _)
    rw [slice_self] at this
    exact this

/-- Witness for C1: the partition property instantiated on a concrete
unterminated template. -/
theorem claim_C1_witness :
    (chainOK inpUserOpen.length 0 (rawPos (hbLex inpUserOpen)) = true) ∧
    (isPartition 0 inpUserOpen.length (tokenizeFrom inpUserOpen (hbLex inpUserOpen)) = true ∧
     joinValues (tokenizeFrom inpUserOpen (hbLex inpUserOpen)) = inpUserOpen) :=
  ⟨by decide, claim_C1 inpUserOpen (hbLex inpUserOpen) (by decide)⟩

-- ============================================================================
-- First-seen deduplication lemmas
-- ============================================================================

theorem mem_firstDedupGo (l : List (List Char)) :
    ∀ (seen : List (List Char)) (a : List Char),
      a ∈ firstDedupGo l seen ↔ (a ∈ l ∧ a ∉ seen) := by
  induction l with
  | nil => intro seen a; simp [firstDedupGo]
  | cons x l ih =>
    intro seen a
    rw [firstDedupGo]
    by_cases hx : seen.contains x = true
    · have hxs : x ∈ seen := by simpa using hx
      rw [if_pos hx, ih]
      constructor
      · rintro ⟨hal, hns⟩
        exact ⟨List.mem_cons_of_mem _ hal, hns⟩
      · rintro ⟨hor, hns⟩
        rcases List.mem_cons.1 hor with h | h
        · exact absurd (h ▸ hxs) hns
        · exact ⟨h, hns⟩
    · have hxs : x ∉ seen := by simpa using hx
      rw [if_neg hx]
      constructor
      · intro hmem
        rcases List.mem_cons.1 hmem with h | h
        · subst h; exact ⟨List.mem_cons_self _ _, hxs⟩
        · obtain ⟨hal, hns⟩ := (ih _ _).1 h
          exact ⟨List.mem_cons_of_mem _ hal, fun hc => hns (List.mem_cons_of_mem _ hc)⟩
      · rintro ⟨hor, hns⟩
        rcases List.mem_cons.1 hor with h | h
        · subst h; exact List.mem_cons_self _ _
        · by_cases hax : a = x
          · subst hax; exact List.mem_cons_self _ _
          · refine List.mem_cons_of_mem _ ((ih _ _).2 ⟨h, ?_⟩)
            intro hc
            rcases List.mem_cons.1 hc with h' | h'
            · exact hax h'
            · exact hns h'

theorem nodup_firstDedupGo (l : List (List Char)) :
    ∀ (seen : List (List Char)), (firstDedupGo l seen).Nodup := by
  induction l with
  | nil => intro seen; simp [firstDedupGo]
  | cons x l ih =>
    intro seen
    rw [firstDedupGo]
    split
    · exact ih seen
    · refine List.nodup_cons.2 ⟨?_, ih _⟩
      intro hmem
      exact ((mem_firstDedupGo l _ x).1 hmem).2 (List.mem_cons_self _ _)

theorem firstIdx_cons_self (a : List Char) (l : List (List Char)) :
    firstIdx a (a :: l) = 0 := by
  simp [firstIdx]

theorem firstIdx_cons_ne (a b : List Char) (l : List (List Char)) (h : a ≠ b) :
    firstIdx a (b :: l) = firstIdx a l + 1 := by
  simp [firstIdx, h]

theorem firstDedupGo_idx_lt (l : List (List Char)) :
    ∀ (seen : List (List Char)) (a b : List Char),
      a ∈ firstDedupGo l seen → b ∈ firstDedupGo l seen →
      firstIdx a l < firstIdx b l →
      firstIdx a (firstDedupGo l seen) < firstIdx b (firstDedupGo l seen) := by
  induction l with
  | nil =>
    intro seen a b ha _ _
    simp [firstDedupGo] at ha
  | cons x l ih =>
    intro seen a b ha hb hlt
    rw [firstDedupGo] at ha hb ⊢
    by_cases hx : seen.contains x = true
    · rw [if_pos hx] at ha hb ⊢
      have hxs : x ∈ seen := by simpa using hx
      have ha' := (mem_firstDedupGo l seen a).1 ha
      have hb' := (mem_firstDedupGo l seen b).1 hb
      have hax : a ≠ x := fun h => ha'.2 (h ▸ hxs)
      have hbx : b ≠ x := fun h => hb'.2 (h ▸ hxs)
      rw [firstIdx_cons_ne a x l hax, firstIdx_cons_ne b x l hbx] at hlt
      exact ih seen a b ha hb (by omega)
    · rw [if_neg hx] at ha hb ⊢
      by_cases hax : a = x
      · subst hax
        have hbx : b ≠ a := by
          intro h
          subst h
          omega
        rw [firstIdx_cons_self, firstIdx_cons_ne b a _ hbx]
        omega
      · have hbx : b ≠ x := by
          intro h
          subst h
          rw [firstIdx_cons_self, firstIdx_cons_ne a b l hax] at hlt
          omega
        have ha2 : a ∈ firstDedupGo l (x :: seen) := by
          rcases List.mem_cons.1 ha with h | h
          · exact absurd h hax
          · exact h
        have hb2 : b ∈ firstDedupGo l (x :: seen) := by
          rcases List.mem_cons.1 hb with h | h
          · exact absurd h hbx
          · exact h
        rw [firstIdx_cons_ne a x l hax, firstIdx_cons_ne b x l hbx] at hlt
        rw [firstIdx_cons_ne a x _ hax, firstIdx_cons_ne b x _ hbx]
        have := ih (x :: seen) a b ha2 hb2 (by omega)
        omega

theorem firstIdx_inj (l : List (List Char)) :
    ∀ (a b : List Char), a ∈ l → b ∈ l → firstIdx a l = firstIdx b l → a = b := by
  induction l with
  | nil => intro a b ha; simp at ha
  | cons x l ih =>
    intro a b ha hb heq
    by_cases hax : a = x
    · by_cases hbx : b = x
      · rw [hax, hbx]
      · subst hax
        rw [firstIdx_cons_self, firstIdx_cons_ne b a l hbx] at heq
        omega
    · by_cases hbx : b = x
      · subst hbx
        rw [firstIdx_cons_ne a b l hax, firstIdx_cons_self] at heq
        omega
      · rw [firstIdx_cons_ne a x l hax, firstIdx_cons_ne b x l hbx] at heq
        have ha' := (List.mem_cons.1 ha).resolve_left hax
        have hb' := (List.mem_cons.1 hb).resolve_left hbx
        exact ih a b ha' hb' (by omega)

theorem firstDedupGo_append_single (l : List (List Char)) :
    ∀ (seen : List (List Char)) (a : List Char),
      firstDedupGo (l ++ [a]) seen =
        firstDedupGo l seen ++ (if a ∈ l ∨ a ∈ seen then [] else [a]) := by
  induction l with
  | nil =>
    intro seen a
    simp only [List.nil_append, firstDedupGo]
    by_cases ha : seen.contains a = true
    · have : a ∈ seen := by simpa using ha
      simp [ha, this, firstDedupGo]
    · have : a ∉ seen := by simpa using ha
      simp [ha, this, firstDedupGo]
  | cons x l ih =>
    intro seen a
    simp only [List.cons_append, firstDedupGo, List.append_eq]
    by_cases hx : seen.contains x = true
    · have hxs : x ∈ seen := by simpa using hx
      have hiff : (a ∈ l ∨ a ∈ seen) ↔ (a ∈ x :: l ∨ a ∈ seen) := by
        constructor
        · rintro (h | h)
          · exact Or.inl (List.mem_cons_of_mem _ h)
          · exact Or.inr h
        · rintro (h | h)
          · rcases List.mem_cons.1 h with h' | h'
            · exact Or.inr (h' ▸ hxs)
            · exact Or.inl h'
          · exact Or.inr h
      rw [if_pos hx, if_pos hx, ih seen a, if_congr hiff rfl rfl]
    · have hiff : (a ∈ l ∨ a ∈ x :: seen) ↔ (a ∈ x :: l ∨ a ∈ seen) := by
        constructor
        · rintro (h | h)
          · exact Or.inl (List.mem_cons_of_mem _ h)
          · rcases List.mem_cons.1 h with h' | h'
            · exact Or.inl (h' ▸ List.mem_cons_self _ _)
            · exact Or.inr h'
        · rintro (h | h)
          · rcases List.mem_cons.1 h with h' | h'
            · exact Or.inr (h' ▸ List.mem_cons_self _ _)
            · exact Or.inl h'
          · exact Or.inr (List.mem_cons_of_mem _ h)
      rw [if_neg hx, if_neg hx, ih (x :: seen) a, List.cons_append,
        if_congr hiff rfl rfl]

-- ============================================================================
-- C7: rootVariables characterization
-- ============================================================================

/-- C7: extract's rootVariables is exactly the deduplicated list of names
of retained context-free variables - no duplicates, same members as the
name list, and ordered by first appearance in it. -/
theorem claim_C7 (s : List Char) :
    ((extract s).rootVariables).Nodup ∧
    (∀ a, a ∈ (extract s).rootVariables ↔
      a ∈ (((extract s).vars.filter (fun v => ctxFalsy v.context)).map (·.name))) ∧
    (∀ a b, a ∈ (extract s).rootVariables → b ∈ (extract s).rootVariables →
      (firstIdx a (((extract s).vars.filter (fun v => ctxFalsy v.context)).map (·.name)) <
        firstIdx b (((extract s).vars.filter (fun v => ctxFalsy v.context)).map (·.name)) ↔
       firstIdx a ((extract s).rootVariables) <
        firstIdx b ((extract s).rootVariables))) := by
  have hrv : (extract s).rootVariables =
      firstDedupGo (((extract s).vars.filter (fun v => ctxFalsy v.context)).map (·.name)) [] := rfl
  set ns := ((extract s).vars.filter (fun v => ctxFalsy v.context)).map (·.name) with hns
  rw [hrv]
  refine ⟨nodup_firstDedupGo ns [], ?_, ?_⟩
  · intro a
    rw [mem_firstDedupGo]
    simp
  · intro a b ha hb
    constructor
    · intro hlt
      exact firstDedupGo_idx_lt ns [] a b ha hb hlt
    · intro hlt
      rcases Nat.lt_trichotomy (firstIdx a ns) (firstIdx b ns) with h | h | h
      · exact h
      · exfalso
        have hae : a ∈ ns := ((mem_firstDedupGo ns [] a).1 ha).1
        have hbe : b ∈ ns := ((mem_firstDedupGo ns [] b).1 hb).1
        have : a = b := firstIdx_inj ns a b hae hbe h
        subst this
        omega
      · exfalso
        have := firstDedupGo_idx_lt ns [] b a hb ha h
        omega

/-- Witness for C7: the characterization applied at the each-items input
with concrete member names. -/
theorem claim_C7_witness :
    (("items").toList ∈ (extract inpEachItems).rootVariables) ∧
    (firstIdx (("items").toList)
        (((extract inpEachItems).vars.filter (fun v => ctxFalsy v.context)).map (·.name)) <
      firstIdx (("items").toList)
        (((extract inpEachItems).vars.filter (fun v => ctxFalsy v.context)).map (·.name)) ↔
     firstIdx (("items").toList) ((extract inpEachItems).rootVariables) <
      firstIdx (("items").toList) ((extract inpEachItems).rootVariables)) :=
  ⟨by decide,
   (claim_C7 inpEachItems).2.2 (("items").toList) (("items").toList)
     (by decide) (by decide)⟩

-- ============================================================================
-- C2: totality and error recovery
-- ============================================================================

/-- C2: a scanner failure is never surfaced - tokenize of a failed scan
equals tokenize of the truncated token list (the tokens produced before
the failure are kept); parseExpressions, on a segment whose scan failed
at position e short of the end, keeps the expressions parsed so far and
resynchronizes at the next opening delimiter after e; and on a concrete
unterminated template both functions return normally (tokenize shown
here, extract's value being covered by the same total definitions). -/
theorem claim_C2 :
    (∀ (content : List Char) (toks : List RawToken) (e : Nat),
      tokenizeScan content ⟨toks, some e⟩ = tokenizeScan content ⟨toks, none⟩) ∧
    (∀ (scan : List Char → ScanResult) (fuel : Nat) (remaining : List Char) (e : Nat),
      0 < remaining.length → (scan remaining).errorAt = some e → e ≠ remaining.length →
      parseExpressionsGo scan (fuel + 1) remaining =
        (parseSegment remaining (scan remaining)).expressions ++
          (match findOpen (remaining.drop e) with
           | none => []
           | some nextOpen => parseExpressionsGo scan fuel ((remaining.drop e).drop nextOpen))) ∧
    tokenize inpUserOpen =
      [⟨.brace, ("\x7b\x7b").toList, 0, 2⟩,
       ⟨.variable, ("user").toList, 2, 6⟩,
       ⟨.brace, (".").toList, 6, 7⟩] := by
  refine ⟨fun _ _ _ => rfl, ?_, by decide⟩
  intro scan fuel remaining e h0 herr hne
  rw [parseExpressionsGo]
  have hlen : ¬remaining.length = 0 := by omega
  simp only [hlen, if_false]
  have hcons : (parseSegment remaining (scan remaining)).consumed = e := by
    simp [parseSegment, herr]
  simp only [hcons]
  rw [if_neg hne]
  cases hfo : findOpen (remaining.drop e) with
  | none => simp
  | some k => rfl

/-- Witness for C2: the recovery equation at a failing scanner and the
input "ab{{x" (with braces written out), failure at offset 0. -/
theorem claim_C2_witness :
    (0 < witRemaining.length) ∧ ((witScan witRemaining).errorAt = some 0) ∧
    (0 ≠ witRemaining.length) ∧
    (parseExpressionsGo witScan 1 witRemaining =
      (parseSegment witRemaining (witScan witRemaining)).expressions ++
        (match findOpen (witRemaining.drop 0) with
         | none => []
         | some nextOpen => parseExpressionsGo witScan 0 ((witRemaining.drop 0).drop nextOpen))) :=
  ⟨by decide, by decide, by decide,
   claim_C2.2.1 witScan 0 witRemaining 0 (by decide) (by decide) (by decide)⟩

-- ============================================================================
-- Path and separators lemmas
-- ============================================================================

theorem takeWhile_all (f : Char → Bool) (p : List Char) (h : ∀ c ∈ p, f c = true) :
    p.takeWhile f = p := by
  induction p with
  | nil => rfl
  | cons c p ih =>
    rw [List.takeWhile_cons, h c (List.mem_cons_self _ _)]
    exact congrArg _ (ih fun c hc => h c (List.mem_cons_of_mem _ hc))

theorem takeWhile_append_all (f : Char → Bool) (p l : List Char)
    (h : ∀ c ∈ p, f c = true) : (p ++ l).takeWhile f = p ++ l.takeWhile f := by
  induction p with
  | nil => rfl
  | cons c p ih =>
    rw [List.cons_append, List.takeWhile_cons, h c (List.mem_cons_self _ _)]
    exact congrArg _ (ih fun c hc => h c (List.mem_cons_of_mem _ hc))

theorem dotFree_chars {p : List Char} (h : dotFree p = true) :
    ∀ c ∈ p, (!(c == '.')) = true := by
  intro c hc
  have hne : ('.' : Char) ∉ p := by simpa [dotFree] using h
  have : c ≠ '.' := fun hcd => hne (hcd ▸ hc)
  simp [this]

theorem leftSeg_joinDots (p : List (List Char)) (h : dotFree (p.headD []) = true) :
    leftSeg (joinDots p) = p.headD [] := by
  match p with
  | [] => rfl
  | [p0] =>
    show leftSeg (joinDots [p0]) = p0
    have hj : joinDots [p0] = p0 := rfl
    rw [hj, leftSeg]
    exact takeWhile_all _ p0 (dotFree_chars h)
  | p0 :: r :: rs =>
    show leftSeg (joinDots (p0 :: r :: rs)) = p0
    have hj : joinDots (p0 :: r :: rs) = p0 ++ '.' :: joinDots (r :: rs) := rfl
    rw [hj, leftSeg]
    rw [takeWhile_append_all _ p0 _ (dotFree_chars h)]
    rw [List.takeWhile_cons]
    simp

theorem dotFree_headD {p : List (List Char)} (h : ∀ seg ∈ p, dotFree seg = true) :
    dotFree (p.headD []) = true := by
  cases p with
  | nil => decide
  | cons p0 ps => exact h p0 (List.mem_cons_self _ _)

theorem collectPath_dotfree (toks : List ExpressionToken) :
    ∀ (b : Bool), IdDotFree toks → ∀ seg ∈ collectPath toks b, dotFree seg = true := by
  induction toks with
  | nil => intro b _ seg hseg; simp [collectPath] at hseg
  | cons t rest ih =>
    intro b hdf seg hseg
    have hrest : IdDotFree rest := fun t' ht' => hdf t' (List.mem_cons_of_mem _ ht')
    rw [collectPath] at hseg
    split_ifs at hseg with h1 h2 h3 h4 h5
    · simp at hseg
    · simp at hseg
    · simp at hseg
    · rcases List.mem_cons.1 hseg with h | h
      · exact h ▸ hdf t (List.mem_cons_self _ _) h2
      · exact ih false hrest seg h
    · exact ih true hrest seg hseg
    · simp at hseg

-- ============================================================================
-- addVariable preservation
-- ============================================================================

theorem addVariable_eq_of_mem {path : List (List Char)} {ctx : ExtractionContext}
    {st : VarsState} {bt : Option (List Char)}
    (hmem : st.vars.any (fun v => v.path == fullPathOf path ctx) = true) :
    addVariable path ctx st bt = ⟨st.vars, st.trace ++ [fullPathOf path ctx]⟩ := by
  simp [addVariable, hmem]

theorem addVariable_eq_of_not_mem {path : List (List Char)} {ctx : ExtractionContext}
    {st : VarsState} {bt : Option (List Char)}
    (hmem : st.vars.any (fun v => v.path == fullPathOf path ctx) = false) :
    addVariable path ctx st bt =
      ⟨st.vars ++ [createVariable (path.headD []) (fullPathOf path ctx) bt
          ((ctxVariableInfo ctx).map (·.root))],
       st.trace ++ [fullPathOf path ctx]⟩ := by
  simp [addVariable, hmem]

theorem createVariable_shape (n p : List Char) (bt c : Option (List Char)) :
    VarShapeInv (createVariable n p bt c) := by
  simp [VarShapeInv, createVariable]

theorem addVariable_inv (path : List (List Char)) (ctx : ExtractionContext)
    (st : VarsState) (bt : Option (List Char))
    (hdf : dotFree (path.headD []) = true) (h : StInv st) :
    StInv (addVariable path ctx st bt) := by
  by_cases hmem : st.vars.any (fun v => v.path == fullPathOf path ctx) = true
  · rw [addVariable_eq_of_mem hmem]
    have hfp : fullPathOf path ctx ∈ st.trace := by
      rcases List.any_eq_true.1 hmem with ⟨v, hv, hbeq⟩
      have hvp : v.path = fullPathOf path ctx := by simpa using hbeq
      have h1 : fullPathOf path ctx ∈ st.vars.map (·.path) :=
        hvp ▸ List.mem_map_of_mem _ hv
      rw [h.1, firstDedup] at h1
      exact ((mem_firstDedupGo _ _ _).1 h1).1
    constructor
    · show st.vars.map (·.path) = firstDedup (st.trace ++ [fullPathOf path ctx])
      rw [firstDedup, firstDedupGo_append_single, if_pos (Or.inl hfp),
        List.append_nil, ← firstDedup]
      exact h.1
    · exact h.2
  · have hmem' : st.vars.any (fun v => v.path == fullPathOf path ctx) = false := by
      simpa using hmem
    rw [addVariable_eq_of_not_mem hmem']
    have hfp : fullPathOf path ctx ∉ st.trace := by
      intro hc
      have h1 : fullPathOf path ctx ∈ firstDedupGo st.trace [] :=
        (mem_firstDedupGo _ _ _).2 ⟨hc, by simp⟩
      rw [← firstDedup, ← h.1] at h1
      rcases List.mem_map.1 h1 with ⟨v, hv, hvp⟩
      have : st.vars.any (fun v => v.path == fullPathOf path ctx) = true :=
        List.any_eq_true.2 ⟨v, hv, by simp [hvp]⟩
      rw [this] at hmem'
      exact Bool.noConfusion hmem'
    have hnotor : ¬(fullPathOf path ctx ∈ st.trace ∨
        fullPathOf path ctx ∈ ([] : List (List Char))) := by
      rintro (hc | hc)
      · exact hfp hc
      · simp at hc
    constructor
    · show (st.vars ++ [createVariable (path.headD []) (fullPathOf path ctx) bt
          ((ctxVariableInfo ctx).map (·.root))]).map (·.path) =
        firstDedup (st.trace ++ [fullPathOf path ctx])
      rw [firstDedup, firstDedupGo_append_single, if_neg hnotor,
        List.map_append, ← firstDedup, h.1]
      rfl
    · intro v hv
      rcases List.mem_append.1 hv with h' | h'
      · exact h.2 v h'
      · have hveq : v = createVariable (path.headD []) (fullPathOf path ctx) bt
            ((ctxVariableInfo ctx).map (·.root)) := by simpa using h'
        subst hveq
        refine ⟨createVariable_shape _ _ _ _, ?_⟩
        intro hctx
        simp only [createVariable] at hctx ⊢
        cases hinfo : ctxVariableInfo ctx with
        | some info => rw [hinfo] at hctx; simp at hctx
        | none =>
          show path.headD [] = leftSeg (fullPathOf path ctx)
          rw [fullPathOf, hinfo]
          exact (leftSeg_joinDots path hdf).symm

-- ============================================================================
-- Extraction traversal preservation
-- ============================================================================

theorem IdDotFree_drop {toks : List ExpressionToken} (n : Nat) (h : IdDotFree toks) :
    IdDotFree (toks.drop n) :=
  fun t ht hid => h t (List.mem_of_mem_drop ht) hid

theorem IdDotFree_dropWhile {toks : List ExpressionToken} (f : ExpressionToken → Bool)
    (h : IdDotFree toks) : IdDotFree (toks.dropWhile f) :=
  fun t ht hid => h t ((List.dropWhile_sublist _).mem ht) hid

theorem extractArgsGo_inv (tokens : List ExpressionToken) (ctx : ExtractionContext)
    (hdf : IdDotFree tokens) :
    ∀ (fuel i : Nat) (st : VarsState), StInv st →
      StInv (extractArgsGo tokens ctx fuel i st) := by
  intro fuel
  induction fuel with
  | zero => intro i st h; rw [extractArgsGo]; exact h
  | succ fuel ih =>
    intro i st h
    rw [extractArgsGo]
    cases hget : tokens.get? i with
    | none => simp only [hget]; exact h
    | some tok =>
      simp only [hget]
      split_ifs with h1 h2 h3 h4 h5 h6 h7 h8
      all_goals
        first
          | exact ih _ _ h
          | exact ih _ _ (addVariable_inv _ _ _ _
              (dotFree_headD (collectPath_dotfree _ true (IdDotFree_drop i hdf))) h)

theorem extractArguments_inv (tokens : List ExpressionToken) (startIdx : Nat)
    (ctx : ExtractionContext) (st : VarsState) (hdf : IdDotFree tokens)
    (h : StInv st) : StInv (extractArguments tokens startIdx ctx st) :=
  extractArgsGo_inv tokens ctx hdf _ _ _ h

theorem extractFromMustache_inv (expr : Expression) (ctx : ExtractionContext)
    (st : VarsState) (hdf : IdDotFree expr.tokens) (h : StInv st) :
    StInv (extractFromMustache expr ctx st) := by
  simp only [extractFromMustache]
  split_ifs with h1 h2 h3 h4 h5
  · exact h
  · exact h
  · exact extractArguments_inv _ _ _ _ hdf h
  · exact extractArguments_inv _ _ _ _ hdf h
  · exact addVariable_inv _ _ _ _
      (dotFree_headD (collectPath_dotfree _ true hdf)) h
  · exact h

theorem extractFromBlock_inv (expr : Expression) (ctx : ExtractionContext)
    (st : VarsState) (hdf : IdDotFree expr.tokens) (h : StInv st) :
    StInv (extractFromBlock expr ctx st).2 := by
  have hdrop : IdDotFree ((expr.tokens.drop 1).dropWhile (fun t => !(t.name == .ID))) :=
    IdDotFree_dropWhile _ (IdDotFree_drop 1 hdf)
  simp only [extractFromBlock]
  split_ifs with h1 h2 h3 h4 h5 h6 h7
  all_goals first
    | exact h
    | exact extractArguments_inv _ _ _ _ hdf h
    | exact addVariable_inv _ _ _ _
        (dotFree_headD (collectPath_dotfree _ true hdrop)) h

theorem extractFromPart_inv (expr : Expression) (ctx : ExtractionContext)
    (st : VarsState) (hdf : IdDotFree expr.tokens) (h : StInv st) :
    StInv (extractFromPart expr ctx st) := by
  simp only [extractFromPart]
  exact extractArguments_inv _ _ _ _ hdf h

theorem extractExprsGo_inv :
    ∀ (exprs : List Expression) (stack : List BlockFrame) (st : VarsState),
      (∀ e ∈ exprs, IdDotFree e.tokens) → StInv st →
      StInv (extractExprsGo exprs stack st) := by
  intro exprs
  induction exprs with
  | nil => intro stack st _ h; rw [extractExprsGo]; exact h
  | cons e rest ih =>
    intro stack st hall h
    rw [extractExprsGo]
    have he : IdDotFree e.tokens := hall e (List.mem_cons_self _ _)
    have hrest : ∀ e' ∈ rest, IdDotFree e'.tokens :=
      fun e' h' => hall e' (List.mem_cons_of_mem _ h')
    cases hty : e.type
    · simp only [hty]
      exact ih _ _ hrest (extractFromMustache_inv _ _ _ he h)
    · simp only [hty]
      exact ih _ _ hrest (extractFromBlock_inv _ _ _ he h)
    · simp only [hty]
      exact ih _ _ hrest h
    · simp only [hty]
      exact ih _ _ hrest (extractFromPart_inv _ _ _ he h)

-- ============================================================================
-- The modelled scanner produces dot-free identifier text
-- ============================================================================

theorem dotFree_takeWhile_isIdChar (l : List Char) :
    dotFree (l.takeWhile isIdChar) = true := by
  have hni : ('.' : Char) ∉ l.takeWhile isIdChar := by
    intro hm
    have := List.mem_takeWhile_imp hm
    exact absurd this (by decide)
  simpa [dotFree] using hni

theorem lexStep_id_dotfree {mode : Bool} {pos : Nat} {cs : List Char}
    {out : List RawToken × Nat × Bool} (h : lexStep mode pos cs = some out) :
    ∀ t ∈ out.1, t.type = .ID → dotFree t.text = true := by
  intro t ht hid
  simp only [lexStep] at h
  repeat' split at h
  all_goals try exact Option.noConfusion h
  all_goals obtain rfl := Option.some.inj h
  all_goals try exact absurd ht (List.not_mem_nil _)
  all_goals rw [List.mem_singleton] at ht
  all_goals subst ht
  all_goals first
    | exact dotFree_takeWhile_isIdChar _
    | simp at hid

theorem hbLexGo_id_dotfree :
    ∀ (fuel : Nat) (mode : Bool) (pos : Nat) (cs : List Char),
      ∀ t ∈ hbLexGo fuel mode pos cs, t.type = .ID → dotFree t.text = true := by
  intro fuel
  induction fuel with
  | zero => intro mode pos cs t ht; rw [hbLexGo] at ht; simp at ht
  | succ fuel ih =>
    intro mode pos cs t ht hid
    match cs with
    | [] => rw [hbLexGo] at ht; simp at ht
    | c :: cs' =>
      rw [hbLexGo] at ht
      cases hstep : lexStep mode pos (c :: cs') with
      | none => rw [hstep] at ht; simp at ht
      | some out =>
        rw [hstep] at ht
        rcases List.mem_append.1 ht with h' | h'
        · exact lexStep_id_dotfree hstep t h' hid
        · exact ih _ _ _ t h' hid

theorem hbScan_tok_dotfree (content : List Char) :
    ∀ tk ∈ (hbScan content).toks, tk.name = .ID → dotFree tk.text = true := by
  intro tk htk hid
  simp only [hbScan] at htk
  rcases List.mem_map.1 htk with ⟨rt, hrt, heq⟩
  subst heq
  exact hbLexGo_id_dotfree _ _ _ _ rt hrt hid

-- ============================================================================
-- Expression provenance
-- ============================================================================

theorem segLoop_inv (Q : ExpressionToken → Prop) :
    ∀ (toks : List LexTok) (st : SegState) (acc : List Expression),
      (∀ tk ∈ toks, Q ⟨tk.name, tk.text⟩) →
      (∀ tk ∈ st.tokens, Q tk) →
      (∀ e ∈ acc, ∀ tk ∈ e.tokens, Q tk) →
      ∀ e ∈ segLoop toks st acc, ∀ tk ∈ e.tokens, Q tk := by
  intro toks
  induction toks with
  | nil =>
    intro st acc _ _ hacc e he
    rw [segLoop] at he
    exact hacc e he
  | cons tk rest ih =>
    intro st acc htoks hst hacc e he tk' htk'
    have hrest : ∀ t ∈ rest, Q ⟨t.name, t.text⟩ :=
      fun t ht => htoks t (List.mem_cons_of_mem _ ht)
    rw [segLoop] at he
    split_ifs at he with h1 h2 h3 h4 h5 h6 h7
    · exact ih st acc hrest hst hacc e he tk' htk'
    · exact ih _ acc hrest (by simp) hacc e he tk' htk'
    · exact ih _ acc hrest (by simp) hacc e he tk' htk'
    · exact ih _ acc hrest (by simp) hacc e he tk' htk'
    · exact ih _ acc hrest (by simp) hacc e he tk' htk'
    · cases hty : st.expressionType with
      | some ty =>
        rw [hty] at he
        refine ih _ _ hrest (by simp) ?_ e he tk' htk'
        intro e' he' tk'' htk''
        rcases List.mem_append.1 he' with h' | h'
        · exact hacc e' h' tk'' htk''
        · have : e' = ⟨ty, st.tokens, st.tokens.head?.map (·.text)⟩ := by simpa using h'
          subst this
          exact hst tk'' htk''
      | none =>
        rw [hty] at he
        exact ih _ acc hrest (by simp) hacc e he tk' htk'
    · refine ih _ acc hrest ?_ hacc e he tk' htk'
      intro t ht
      rcases List.mem_append.1 ht with h' | h'
      · exact hst t h'
      · have : t = ⟨tk.name, tk.text⟩ := by simpa using h'
        subst this
        exact htoks tk (List.mem_cons_self _ _)
    · exact ih st acc hrest hst hacc e he tk' htk'

theorem parseExpressions_eq (content : List Char) :
    parseExpressions content = (parseSegment content (hbScan content)).expressions := by
  rw [parseExpressions, parseExpressionsGo]
  by_cases h : content.length = 0
  · have hc : content = [] := List.length_eq_zero.1 h
    subst hc
    simp [parseSegment, hbScan, segLoop, hbLex, hbLexGo]
  · simp only [h, if_false]
    have : (parseSegment content (hbScan content)).consumed = content.length := rfl
    rw [this, if_pos rfl]

theorem parseExpressions_dotfree (content : List Char) :
    ∀ e ∈ parseExpressions content, IdDotFree e.tokens := by
  intro e he t ht hid
  rw [parseExpressions_eq] at he
  exact segLoop_inv (fun tk => tk.name = .ID → dotFree tk.text = true)
    (hbScan content).toks ⟨false, none, []⟩ []
    (fun tk htk h' => hbScan_tok_dotfree content tk htk h')
    (by simp) (by simp) e he t ht hid

theorem extract_StInv (s : List Char) :
    StInv (extractVariablesFromExpressions (parseExpressions s)) := by
  refine extractExprsGo_inv _ [] ⟨[], []⟩ (parseExpressions_dotfree s) ⟨rfl, ?_⟩
  intro v hv
  simp at hv

-- ============================================================================
-- C4 (amended), C5, C10
-- ============================================================================

/-- C4 as amended: for variables recorded without a block-scope context
(context unset) the name is the leftmost dot-separated segment of the
path; context-prefixed variables keep the collected path's root as name
instead, as the counterexample shows. -/
theorem claim_C4_amended (s : List Char) :
    ∀ v ∈ (extract s).vars, v.context = none → v.name = leftSeg v.path :=
  fun v hv hctx => ((extract_StInv s).2 v hv).2 hctx

/-- Witness for the amended C4 at the each-items input. -/
theorem claim_C4_amended_witness :
    (vWit ∈ (extract inpEachItems).vars) ∧ (vWit.context = none) ∧
    (vWit.name = leftSeg vWit.path) :=
  ⟨by decide, rfl, claim_C4_amended inpEachItems vWit (by decide) rfl⟩

/-- C5: a variable's type is block iff its blockType is set; otherwise it
is nested iff its path contains a dot or its context is set, and simple
otherwise. -/
theorem claim_C5 (s : List Char) :
    ∀ v ∈ (extract s).vars,
      (v.type = .block ↔ v.blockType.isSome = true) ∧
      (v.blockType = none →
        ((v.type = .nested ↔ (v.path.contains '.' = true ∨ v.context.isSome = true)) ∧
         (v.type = .simple ↔ ¬(v.path.contains '.' = true ∨ v.context.isSome = true)))) := by
  intro v hv
  have hs := ((extract_StInv s).2 v hv).1
  rw [VarShapeInv] at hs
  split_ifs at hs with hb hn
  · constructor
    · simp [hs, hb]
    · intro hbn
      rw [hbn] at hb
      simp at hb
  · constructor
    · constructor
      · intro ht
        rw [hs] at ht
        exact absurd ht (by decide)
      · intro hbs
        exact absurd hbs hb
    · intro _
      constructor
      · exact ⟨fun _ => hn, fun _ => hs⟩
      · constructor
        · intro hsimp
          exact absurd (hs.symm.trans hsimp) (by decide)
        · intro hncond
          exact absurd hn hncond
  · constructor
    · constructor
      · intro ht
        rw [hs] at ht
        exact absurd ht (by decide)
      · intro hbs
        exact absurd hbs hb
    · intro _
      constructor
      · constructor
        · intro hnst
          exact absurd (hs.symm.trans hnst) (by decide)
        · intro hcond
          exact absurd hcond hn
      · exact ⟨fun _ => hn, fun _ => hs⟩

/-- Witness for C5 at the each-items input. -/
theorem claim_C5_witness :
    (vWit ∈ (extract inpEachItems).vars) ∧
    (vWit.type = .block ↔ vWit.blockType.isSome = true) :=
  ⟨by decide, (claim_C5 inpEachItems vWit (by decide)).1⟩

/-- C10: the variables list carries no duplicate paths and is ordered by
first recording: a path first recorded earlier in the left-to-right walk
(the ghost trace) appears earlier in the returned list. -/
theorem claim_C10 (s : List Char) :
    (((extract s).vars.map (·.path)).Nodup) ∧
    (∀ p1 p2 : List Char, p1 ∈ (extract s).vars.map (·.path) →
      p2 ∈ (extract s).vars.map (·.path) →
      firstIdx p1 (extractTrace s) < firstIdx p2 (extractTrace s) →
      firstIdx p1 ((extract s).vars.map (·.path)) <
        firstIdx p2 ((extract s).vars.map (·.path))) := by
  have hmap : (extract s).vars.map (·.path) = firstDedupGo (extractTrace s) [] := by
    have h1 := (extract_StInv s).1
    rw [firstDedup] at h1
    exact h1
  rw [hmap]
  exact ⟨nodup_firstDedupGo _ _,
    fun p1 p2 h1 h2 hlt => firstDedupGo_idx_lt _ _ _ _ h1 h2 hlt⟩

/-- Witness for C10: the ordering applied to the two paths of the
each-items input. -/
theorem claim_C10_witness :
    (("items").toList ∈ (extract inpEachItems).vars.map (·.path)) ∧
    (("items[].name").toList ∈ (extract inpEachItems).vars.map (·.path)) ∧
    (firstIdx (("items").toList) (extractTrace inpEachItems) <
      firstIdx (("items[].name").toList) (extractTrace inpEachItems)) ∧
    (firstIdx (("items").toList) ((extract inpEachItems).vars.map (·.path)) <
      firstIdx (("items[].name").toList) ((extract inpEachItems).vars.map (·.path))) :=
  ⟨by decide, by decide, by decide,
   (claim_C10 inpEachItems).2 (("items").toList) (("items[].name").toList)
     (by decide) (by decide) (by decide)⟩

end HbEditor
